import Mathlib

/-!
Verification of the highlight engine in `src/components/Reader.tsx`.

The embedding models:
* `Highlight` — the TS interface `Highlight { start: number; end: number }`
  (offsets are integer-valued in this code path, so fields are `Int`);
* the stable sort-and-merge pass of the `HighlightedText` component
  (`[...highlights].sort((a,b) => a.start - b.start)` followed by the
  accumulator sweep) as `sortK` / `mergeAux` / `mergeRanges`;
* the segment construction of `HighlightedText` as `renderParts` /
  `renderSegments`;
* the object-field mutation performed by the sweep (the sort copies the
  array, not the objects, and `current.end = Math.max(...)` writes through
  the alias) as `renderPost`;
* the block loop of `applyHighlight` as `applyHighlight`;
* `getBlockOffset`'s TreeWalker traversal over a DOM subtree as
  `walkerLeaves` / `offsetLoop` / `getBlockOffset`;
* the persistence layer (`JSON.stringify` / `JSON.parse` over the persisted
  mapping shape, `localStorage` keyed by section id) as `stringifyHighlights`
  / `parseHighlights` / `loadHighlights`.
-/

/-- The TS `Highlight` interface from `Reader.tsx`: a range with `start` and
`end` offsets. JS numbers on this code path are integer valued, so the
fields are modelled by `Int`. -/
structure Highlight where
  start : Int
  «end» : Int
  deriving DecidableEq, Repr

/-- Stable insertion of `x` into a list, after every element whose key is
`≤ key x`.  Building a sort from this (left to right over the input)
reproduces the result of the stable ascending JS
`Array.prototype.sort((a,b) => key(a) - key(b))`. -/
def insertK {α : Type} (key : α → Int) (x : α) : List α → List α
  | [] => [x]
  | y :: ys => if key y ≤ key x then y :: insertK key x ys else x :: y :: ys

/-- Left fold of `insertK` over the input, accumulator style. -/
def sortKAux {α : Type} (key : α → Int) : List α → List α → List α
  | [], acc => acc
  | x :: xs, acc => sortKAux key xs (insertK key x acc)

/-- Stable ascending sort by an integer key; models the JS
`arr.sort((a,b) => key(a) - key(b))` (stable per ES2019). -/
def sortK {α : Type} (key : α → Int) (l : List α) : List α :=
  sortKAux key l []

/-- The accumulator sweep of `HighlightedText` (lines 188-199 of
`Reader.tsx`): `current` absorbs the next range when
`current.end >= next.start`, otherwise `current` is emitted and the next
range becomes the accumulator.  Returns the emitted (merged) ranges. -/
def mergeAux (cur : Highlight) : List Highlight → List Highlight
  | [] => [cur]
  | y :: ys =>
    if y.start ≤ cur.«end» then
      mergeAux ⟨cur.start, max cur.«end» y.«end»⟩ ys
    else
      cur :: mergeAux y ys

/-- The full sort-and-merge pass of `HighlightedText` (the spec's
`RangeMerger`): sort ascending by `start`, then sweep. -/
def mergeRanges (l : List Highlight) : List Highlight :=
  match sortK (fun h => h.start) l with
  | [] => []
  | x :: xs => mergeAux x xs

-- Scenario checks from the spec (§8): A (disjoint), B (overlap), C (touch).
example : mergeRanges [⟨4, 9⟩, ⟨10, 15⟩] = [⟨4, 9⟩, ⟨10, 15⟩] := by decide
example : mergeRanges [⟨4, 9⟩, ⟨7, 15⟩] = [⟨4, 15⟩] := by decide
example : mergeRanges [⟨4, 9⟩, ⟨9, 15⟩] = [⟨4, 15⟩] := by decide
example : mergeRanges [⟨3, 3⟩] = [⟨3, 3⟩] := by decide

/-- Strict separation between consecutive ranges: the spec's
`output[i].end < output[i+1].start`. -/
def sep (a b : Highlight) : Prop := a.«end» < b.start

theorem insertK_perm {α : Type} (key : α → Int) (x : α) (l : List α) :
    List.Perm (insertK key x l) (x :: l) := by
  induction l with
  | nil => simp [insertK]
  | cons y ys ih =>
    simp only [insertK]
    split
    · exact (ih.cons y).trans (List.Perm.swap x y ys)
    · rfl

theorem sortKAux_perm {α : Type} (key : α → Int) (l acc : List α) :
    List.Perm (sortKAux key l acc) (l ++ acc) := by
  induction l generalizing acc with
  | nil => simp [sortKAux]
  | cons x xs ih =>
    simp only [sortKAux]
    refine (ih (insertK key x acc)).trans ?_
    refine (List.Perm.append_left xs (insertK_perm key x acc)).trans ?_
    exact List.perm_middle

theorem sortK_perm {α : Type} (key : α → Int) (l : List α) :
    List.Perm (sortK key l) l := by
  simpa [sortK] using sortKAux_perm key l []

theorem mem_insertK {α : Type} (key : α → Int) (x a : α) (l : List α) :
    a ∈ insertK key x l ↔ a = x ∨ a ∈ l := by
  rw [(insertK_perm key x l).mem_iff]
  simp

theorem insertK_pairwise {α : Type} (key : α → Int) (x : α) (l : List α)
    (h : List.Pairwise (fun a b => key a ≤ key b) l) :
    List.Pairwise (fun a b => key a ≤ key b) (insertK key x l) := by
  induction l with
  | nil => simp [insertK]
  | cons y ys ih =>
    rcases List.pairwise_cons.mp h with ⟨hy, hys⟩
    simp only [insertK]
    split
    · rename_i hxy
      refine List.pairwise_cons.mpr ⟨?_, ih hys⟩
      intro a ha
      rcases (mem_insertK key x a ys).mp ha with rfl | ha'
      · exact hxy
      · exact hy a ha'
    · rename_i hxy
      push_neg at hxy
      refine List.pairwise_cons.mpr ⟨?_, h⟩
      intro a ha
      rcases List.mem_cons.mp ha with rfl | ha'
      · exact le_of_lt hxy
      · exact le_trans (le_of_lt hxy) (hy a ha')

theorem sortKAux_pairwise {α : Type} (key : α → Int) (l : List α) :
    ∀ acc, List.Pairwise (fun a b => key a ≤ key b) acc →
      List.Pairwise (fun a b => key a ≤ key b) (sortKAux key l acc) := by
  induction l with
  | nil => intro acc h; simpa [sortKAux] using h
  | cons x xs ih =>
    intro acc h
    exact ih (insertK key x acc) (insertK_pairwise key x acc h)

theorem sortK_pairwise {α : Type} (key : α → Int) (l : List α) :
    List.Pairwise (fun a b => key a ≤ key b) (sortK key l) :=
  sortKAux_pairwise key l [] List.Pairwise.nil

theorem insertK_append_of_le {α : Type} (key : α → Int) (x : α) (l : List α)
    (h : ∀ y ∈ l, key y ≤ key x) : insertK key x l = l ++ [x] := by
  induction l with
  | nil => rfl
  | cons y ys ih =>
    simp only [insertK]
    rw [if_pos (h y (List.mem_cons_self y ys))]
    rw [ih (fun z hz => h z (List.mem_cons_of_mem y hz))]
    rfl

theorem sortKAux_eq_of_pairwise {α : Type} (key : α → Int) (l : List α) :
    ∀ acc, List.Pairwise (fun a b => key a ≤ key b) (acc ++ l) →
      sortKAux key l acc = acc ++ l := by
  induction l with
  | nil => intro acc _; simp [sortKAux]
  | cons x xs ih =>
    intro acc h
    have hacc : ∀ y ∈ acc, key y ≤ key x := by
      intro y hy
      exact ((List.pairwise_append.mp h).2.2) y hy x (List.mem_cons_self x xs)
    simp only [sortKAux]
    rw [insertK_append_of_le key x acc hacc]
    rw [ih (acc ++ [x]) (by simpa using h)]
    simp

theorem sortK_eq_of_pairwise {α : Type} (key : α → Int) (l : List α)
    (h : List.Pairwise (fun a b => key a ≤ key b) l) : sortK key l = l := by
  simpa [sortK] using sortKAux_eq_of_pairwise key l [] (by simpa using h)

theorem mergeAux_head (l : List Highlight) :
    ∀ cur : Highlight, ∃ e rest, mergeAux cur l = { start := cur.start, «end» := e } :: rest
      ∧ cur.«end» ≤ e := by
  induction l with
  | nil => intro cur; exact ⟨cur.«end», [], rfl, le_refl _⟩
  | cons y ys ih =>
    intro cur
    simp only [mergeAux]
    split
    · obtain ⟨e, rest, heq, hle⟩ := ih ⟨cur.start, max cur.«end» y.«end»⟩
      exact ⟨e, rest, heq, le_trans (le_max_left _ _) hle⟩
    · exact ⟨cur.«end», mergeAux y ys, rfl, le_refl _⟩

theorem mergeAux_chain (l : List Highlight) :
    ∀ cur : Highlight, List.Chain' sep (mergeAux cur l) := by
  induction l with
  | nil => intro cur; simp [mergeAux]
  | cons y ys ih =>
    intro cur
    simp only [mergeAux]
    split
    · exact ih _
    · rename_i h
      obtain ⟨e, rest, heq, _⟩ := mergeAux_head ys y
      rw [heq]
      refine List.chain'_cons.mpr ⟨?_, heq ▸ ih y⟩
      show cur.«end» < y.start
      omega

theorem mergeAux_start_mem (l : List Highlight) :
    ∀ cur r, r ∈ mergeAux cur l → ∃ x, (x = cur ∨ x ∈ l) ∧ r.start = x.start := by
  induction l with
  | nil =>
    intro cur r hr
    simp only [mergeAux, List.mem_singleton] at hr
    exact ⟨cur, Or.inl rfl, by rw [hr]⟩
  | cons y ys ih =>
    intro cur r hr
    simp only [mergeAux] at hr
    split at hr
    · obtain ⟨x, hx, hs⟩ := ih _ r hr
      rcases hx with rfl | hx'
      · exact ⟨cur, Or.inl rfl, hs⟩
      · exact ⟨x, Or.inr (List.mem_cons_of_mem y hx'), hs⟩
    · rcases List.mem_cons.mp hr with hrc | hr'
      · exact ⟨cur, Or.inl rfl, by rw [hrc]⟩
      · obtain ⟨x, hx, hs⟩ := ih y r hr'
        rcases hx with rfl | hx'
        · exact ⟨x, Or.inr (List.mem_cons_self x ys), hs⟩
        · exact ⟨x, Or.inr (List.mem_cons_of_mem y hx'), hs⟩

theorem mergeAux_sorted (l : List Highlight) :
    ∀ cur, List.Pairwise (fun a b : Highlight => a.start ≤ b.start) (cur :: l) →
      List.Pairwise (fun a b : Highlight => a.start ≤ b.start) (mergeAux cur l) := by
  induction l with
  | nil => intro cur _; simp [mergeAux]
  | cons y ys ih =>
    intro cur hp
    rcases List.pairwise_cons.mp hp with ⟨hcur, hys⟩
    simp only [mergeAux]
    split
    · apply ih
      refine List.pairwise_cons.mpr ⟨?_, (List.pairwise_cons.mp hys).2⟩
      intro b hb
      exact hcur b (List.mem_cons_of_mem y hb)
    · refine List.pairwise_cons.mpr ⟨?_, ih y hys⟩
      intro b hb
      obtain ⟨x, hx, hs⟩ := mergeAux_start_mem ys y b hb
      rw [hs]
      rcases hx with rfl | hx'
      · exact hcur x (List.mem_cons_self x ys)
      · exact hcur x (List.mem_cons_of_mem y hx')

theorem mergeAux_sep (l : List Highlight) :
    ∀ cur, List.Pairwise (fun a b : Highlight => a.start ≤ b.start) (cur :: l) →
      List.Pairwise sep (mergeAux cur l) := by
  induction l with
  | nil => intro cur _; simp [mergeAux]
  | cons y ys ih =>
    intro cur hp
    rcases List.pairwise_cons.mp hp with ⟨hcur, hys⟩
    simp only [mergeAux]
    split
    · apply ih
      refine List.pairwise_cons.mpr ⟨?_, (List.pairwise_cons.mp hys).2⟩
      intro b hb
      exact hcur b (List.mem_cons_of_mem y hb)
    · rename_i hcond
      refine List.pairwise_cons.mpr ⟨?_, ih y hys⟩
      intro b hb
      obtain ⟨x, hx, hs⟩ := mergeAux_start_mem ys y b hb
      show cur.«end» < b.start
      have hy : y.start ≤ x.start := by
        rcases hx with rfl | hx'
        · exact le_refl _
        · exact (List.pairwise_cons.mp hys).1 x hx'
      omega

theorem mergeAux_valid (l : List Highlight) :
    ∀ cur, cur.start < cur.«end» → (∀ r ∈ l, r.start < r.«end») →
      ∀ r ∈ mergeAux cur l, r.start < r.«end» := by
  induction l with
  | nil =>
    intro cur hcur _ r hr
    simp only [mergeAux, List.mem_singleton] at hr
    rw [hr]; exact hcur
  | cons y ys ih =>
    intro cur hcur hl r hr
    simp only [mergeAux] at hr
    split at hr
    · refine ih _ ?_ (fun z hz => hl z (List.mem_cons_of_mem y hz)) r hr
      show cur.start < max cur.«end» y.«end»
      omega
    · rcases List.mem_cons.mp hr with rfl | hr'
      · exact hcur
      · exact ih y (hl y (List.mem_cons_self y ys)) (fun z hz => hl z (List.mem_cons_of_mem y hz)) r hr'

theorem mergeAux_of_chain (l : List Highlight) :
    ∀ cur, List.Chain' sep (cur :: l) → mergeAux cur l = cur :: l := by
  induction l with
  | nil => intro cur _; rfl
  | cons y ys ih =>
    intro cur hc
    have h1 : cur.«end» < y.start := (List.chain'_cons.mp hc).1
    have h2 := (List.chain'_cons.mp hc).2
    simp only [mergeAux]
    rw [if_neg (by show ¬ y.start ≤ cur.«end»; omega)]
    rw [ih y h2]

theorem mergeRanges_chain (l : List Highlight) : List.Chain' sep (mergeRanges l) := by
  unfold mergeRanges
  split
  · simp
  · exact mergeAux_chain _ _

theorem mergeRanges_sorted (l : List Highlight) :
    List.Pairwise (fun a b : Highlight => a.start ≤ b.start) (mergeRanges l) := by
  unfold mergeRanges
  split
  · simp
  · rename_i x xs heq
    exact mergeAux_sorted xs x (heq ▸ sortK_pairwise (fun h => h.start) l)

theorem mergeRanges_sep (l : List Highlight) : List.Pairwise sep (mergeRanges l) := by
  unfold mergeRanges
  split
  · simp
  · rename_i x xs heq
    exact mergeAux_sep xs x (heq ▸ sortK_pairwise (fun h => h.start) l)

theorem mergeRanges_valid (l : List Highlight) (h : ∀ r ∈ l, r.start < r.«end») :
    ∀ r ∈ mergeRanges l, r.start < r.«end» := by
  unfold mergeRanges
  split
  · simp
  · rename_i x xs heq
    have hmem : ∀ z ∈ x :: xs, z.start < z.«end» := by
      intro z hz
      exact h z ((sortK_perm (fun h => h.start) l).mem_iff.mp (heq ▸ hz))
    exact mergeAux_valid xs x (hmem x (List.mem_cons_self x xs))
      (fun z hz => hmem z (List.mem_cons_of_mem x hz))

theorem mergeRanges_of_canonical (l : List Highlight)
    (hs : List.Pairwise (fun a b : Highlight => a.start ≤ b.start) l)
    (hc : List.Chain' sep l) : mergeRanges l = l := by
  cases l with
  | nil => rfl
  | cons x xs =>
    have hsort : sortK (fun h => h.start) (x :: xs) = x :: xs :=
      sortK_eq_of_pairwise _ _ hs
    unfold mergeRanges
    rw [hsort]
    exact mergeAux_of_chain xs x hc

/-- C7: the sort-and-merge pass of `HighlightedText` (the spec's
`RangeMerger`) is idempotent: merging an already-merged list changes
nothing, for every input list of ranges. -/
theorem rangeMerger_idempotent (l : List Highlight) :
    mergeRanges (mergeRanges l) = mergeRanges l :=
  mergeRanges_of_canonical _ (mergeRanges_sorted l) (mergeRanges_chain l)

/-- C6 counterexample: on the degenerate input `[{start := 3, end := 3}]`
(explicitly allowed by the claim, which covers degenerate inputs) the merge
pass returns the range unchanged, so the output does not satisfy
`start < end`. -/
theorem rangeMerger_contract_cex :
    ¬ (∀ r ∈ mergeRanges [({ start := 3, «end» := 3 } : Highlight)], r.start < r.«end») := by
  decide

/-- C6 (amended): for every input list whose ranges each satisfy
`start < end` — still allowing empty, unsorted, overlapping and nested
inputs — the merge output is pairwise strictly separated
(`output[i].end < output[i+1].start`), every output range satisfies
`start < end`, and the empty input yields the empty output.  (On degenerate
inputs with `start ≥ end` the pass passes the degenerate range through, so
the original claim fails there; separation itself holds for every input,
see `mergeRanges_sep`.) -/
theorem rangeMerger_contract (l : List Highlight)
    (h : ∀ r ∈ l, r.start < r.«end») :
    List.Pairwise sep (mergeRanges l)
      ∧ (∀ r ∈ mergeRanges l, r.start < r.«end»)
      ∧ mergeRanges ([] : List Highlight) = [] :=
  ⟨mergeRanges_sep l, mergeRanges_valid l h, rfl⟩

/-- Witness for C6 (amended) at a concrete overlapping input. -/
theorem rangeMerger_contract_witness :
    List.Pairwise sep (mergeRanges [({ start := 4, «end» := 9 } : Highlight), { start := 7, «end» := 15 }])
      ∧ (∀ r ∈ mergeRanges [({ start := 4, «end» := 9 } : Highlight), { start := 7, «end» := 15 }],
          r.start < r.«end»)
      ∧ mergeRanges ([] : List Highlight) = [] :=
  rangeMerger_contract _ (by decide)

/-- The defensive clamp of `HighlightedText` (lines 205-206 of
`Reader.tsx`): `Math.max(0, Math.min(v, text.length))`. -/
def clampI (len : Nat) (v : Int) : Nat := (max 0 (min v (len : Int))).toNat

theorem clampI_le_len (len : Nat) (v : Int) : clampI len v ≤ len := by
  unfold clampI; omega

theorem clampI_mono (len : Nat) {a b : Int} (h : a ≤ b) :
    clampI len a ≤ clampI len b := by
  unfold clampI; omega

/-- The segment construction loop of `HighlightedText` (lines 201-221 of
`Reader.tsx`) over the merged range list: before each highlighted span, a
plain segment is emitted when `start > lastIndex`; the highlighted segment
is `text.slice(start, end)` (JS `slice` on a clamped pair, which is empty
when `start ≥ end`); after the loop a trailing plain segment is emitted when
`lastIndex < text.length`.  Texts are modelled as `List Char`, a segment as
`(text, highlighted)`. -/
def renderParts (t : List Char) : Nat → List Highlight → List (List Char × Bool)
  | lastIndex, [] => if lastIndex < t.length then [(t.drop lastIndex, false)] else []
  | lastIndex, h :: rest =>
    (if lastIndex < clampI t.length h.start then
        [((t.take (clampI t.length h.start)).drop lastIndex, false)]
      else [])
      ++ ((t.take (clampI t.length h.«end»)).drop (clampI t.length h.start), true)
        :: renderParts t (clampI t.length h.«end») rest

/-- The full render-time query (the spec's `renderSegments`): with no stored
highlights `HighlightedText` returns the raw text as one unhighlighted
segment; otherwise it runs the sort-and-merge pass and builds segments. -/
def renderSegments (t : List Char) (hl : List Highlight) : List (List Char × Bool) :=
  if hl.isEmpty then [(t, false)] else renderParts t 0 (mergeRanges hl)

/-- Concatenation of the text fields of a segment list. -/
def concatSegs (ps : List (List Char × Bool)) : List Char :=
  ps.foldr (fun p acc => p.1 ++ acc) []

theorem drop_take_drop (t : List Char) (a b : Nat) (hab : a ≤ b) (hb : b ≤ t.length) :
    (t.take b).drop a ++ t.drop b = t.drop a := by
  conv_rhs => rw [← List.take_append_drop b t]
  rw [List.drop_append_eq_append_drop]
  have h1 : (t.take b).length = b := by rw [List.length_take]; omega
  rw [h1]
  have h2 : a - b = 0 := by omega
  rw [h2]
  rfl

theorem mergeAux_valid_le (l : List Highlight) :
    ∀ cur : Highlight, cur.start ≤ cur.«end» → (∀ r ∈ l, r.start ≤ r.«end») →
      ∀ r ∈ mergeAux cur l, r.start ≤ r.«end» := by
  induction l with
  | nil =>
    intro cur hcur _ r hr
    simp only [mergeAux, List.mem_singleton] at hr
    rw [hr]; exact hcur
  | cons y ys ih =>
    intro cur hcur hl r hr
    simp only [mergeAux] at hr
    split at hr
    · refine ih _ ?_ (fun z hz => hl z (List.mem_cons_of_mem y hz)) r hr
      show cur.start ≤ max cur.«end» y.«end»
      omega
    · rcases List.mem_cons.mp hr with rfl | hr'
      · exact hcur
      · exact ih y (hl y (List.mem_cons_self y ys)) (fun z hz => hl z (List.mem_cons_of_mem y hz)) r hr'

theorem mergeRanges_valid_le (l : List Highlight) (h : ∀ r ∈ l, r.start ≤ r.«end») :
    ∀ r ∈ mergeRanges l, r.start ≤ r.«end» := by
  unfold mergeRanges
  split
  · simp
  · rename_i x xs heq
    have hmem : ∀ z ∈ x :: xs, z.start ≤ z.«end» := by
      intro z hz
      exact h z ((sortK_perm (fun h => h.start) l).mem_iff.mp (heq ▸ hz))
    exact mergeAux_valid_le xs x (hmem x (List.mem_cons_self x xs))
      (fun z hz => hmem z (List.mem_cons_of_mem x hz))

theorem renderParts_concat (t : List Char) (merged : List Highlight) :
    ∀ lastIndex, List.Chain' sep merged →
      (∀ r ∈ merged, r.start ≤ r.«end») →
      (∀ h, merged.head? = some h → lastIndex ≤ clampI t.length h.start) →
      concatSegs (renderParts t lastIndex merged) = t.drop lastIndex := by
  induction merged with
  | nil =>
    intro li _ _ _
    by_cases hlt : li < t.length
    · simp [renderParts, concatSegs, hlt]
    · simp [renderParts, concatSegs, hlt, List.drop_eq_nil_of_le (by omega : t.length ≤ li)]
  | cons h rest ih =>
    intro li hchain hval hhead
    have hs : li ≤ clampI t.length h.start := hhead h rfl
    have hse : clampI t.length h.start ≤ clampI t.length h.«end» :=
      clampI_mono t.length (hval h (List.mem_cons_self h rest))
    have hel : clampI t.length h.«end» ≤ t.length := clampI_le_len t.length h.«end»
    have hrest : ∀ g, rest.head? = some g →
        clampI t.length h.«end» ≤ clampI t.length g.start := by
      intro g hg
      cases rest with
      | nil => simp at hg
      | cons g' rest' =>
        have hgg : g' = g := by simpa using hg
        have hsep : h.«end» < g.start := by
          rw [← hgg]; exact (List.chain'_cons.mp hchain).1
        exact clampI_mono t.length (by omega)
    have hconcat := ih (clampI t.length h.«end») hchain.tail
      (fun r hr => hval r (List.mem_cons_of_mem h hr)) hrest
    by_cases hlis : li < clampI t.length h.start
    · simp only [renderParts, if_pos hlis, concatSegs, List.foldr_cons, List.foldr_append,
        List.foldr_nil]
      show (t.take (clampI t.length h.start)).drop li
        ++ ((t.take (clampI t.length h.«end»)).drop (clampI t.length h.start)
            ++ concatSegs (renderParts t (clampI t.length h.«end») rest)) = t.drop li
      rw [hconcat]
      rw [drop_take_drop t (clampI t.length h.start) (clampI t.length h.«end») hse hel]
      rw [drop_take_drop t li (clampI t.length h.start) (by omega) (by omega)]
    · have hseq : li = clampI t.length h.start := by omega
      simp only [renderParts, if_neg hlis, concatSegs, List.foldr_cons, List.nil_append]
      show (t.take (clampI t.length h.«end»)).drop (clampI t.length h.start)
        ++ concatSegs (renderParts t (clampI t.length h.«end») rest) = t.drop li
      rw [hconcat]
      rw [drop_take_drop t (clampI t.length h.start) (clampI t.length h.«end») hse hel]
      rw [hseq]

/-- C5 counterexample: on the reversed range `{start := 4, end := 2}` the
clamped JS slice is empty but `lastIndex` moves backwards to 2, so
characters 2 and 3 of `"abcdef"` are emitted twice: the segment texts
concatenate to `"abcdcdef"`, not to the input text. -/
theorem renderSegments_concat_cex :
    concatSegs (renderSegments ['a','b','c','d','e','f']
        [{ start := 4, «end» := 2 }]) ≠ ['a','b','c','d','e','f'] := by
  decide

/-- C5 (amended): for every text and every range list each of whose ranges
satisfies `start ≤ end` — still allowing the empty list, unsorted and
overlapping lists, and ranges exceeding the text length, each range being
clamped to `[0, len(text)]` before slicing — the concatenation of the text
fields of all segments returned by `renderSegments` equals the input text
exactly.  (A reversed range with `start > end` breaks the property, see the
counterexample.) -/
theorem renderSegments_concat (t : List Char) (hl : List Highlight)
    (h : ∀ r ∈ hl, r.start ≤ r.«end») :
    concatSegs (renderSegments t hl) = t := by
  unfold renderSegments
  by_cases he : hl.isEmpty
  · simp [he, concatSegs]
  · rw [if_neg he]
    have := renderParts_concat t (mergeRanges hl) 0 (mergeRanges_chain hl)
      (mergeRanges_valid_le hl h) (fun g _ => Nat.zero_le _)
    simpa using this

/-- Witness for C5 (amended): spec Scenario A text with two stored ranges. -/
theorem renderSegments_concat_witness :
    concatSegs (renderSegments ['t','h','e',' ','q','u','i','c','k']
        [{ start := 4, «end» := 9 }, { start := 0, «end» := 3 }])
      = ['t','h','e',' ','q','u','i','c','k'] :=
  renderSegments_concat _ _ (by decide)

instance : DecidableRel sep := fun a b => inferInstanceAs (Decidable (a.«end» < b.start))

/-- Labels a list with consecutive indices starting at `n`; the label plays
the role of JS object identity for the ranges stored in the state array. -/
def withIdx {α : Type} : Nat → List α → List (Nat × α)
  | _, [] => []
  | n, x :: xs => (n, x) :: withIdx (n + 1) xs

/-- Looks up the final value of the object labelled `i`. -/
def lookupIdx (ps : List (Nat × Highlight)) (i : Nat) : Option Highlight :=
  (ps.find? (fun p => p.1 == i)).map (fun p => p.2)

/-- Mutation semantics of the accumulator sweep of `HighlightedText`: the JS
sort `[...highlights].sort(...)` copies the array but shares the range
objects, and `current.end = Math.max(current.end, sorted[i].end)` writes
through that alias.  Given the sorted, labelled array, this returns the
final field values of every labelled object after the sweep: the first
object of each merged run carries the accumulated `end`, the absorbed
objects keep their own fields. -/
def mergePost (cur : Nat × Highlight) : List (Nat × Highlight) → List (Nat × Highlight)
  | [] => [cur]
  | y :: ys =>
    if y.2.start ≤ cur.2.«end» then
      match mergePost (cur.1, ⟨cur.2.start, max cur.2.«end» y.2.«end»⟩) ys with
      | [] => [y]
      | c :: rest => c :: y :: rest
    else
      cur :: mergePost y ys

/-- `mergePost` over a possibly empty sorted labelled array. -/
def mergePostTop : List (Nat × Highlight) → List (Nat × Highlight)
  | [] => []
  | x :: xs => mergePost x xs

/-- The values of the stored highlight array after `HighlightedText` runs
its sort-and-merge pass, in the original array order (the sort copies the
array, so the order never changes — only object fields can). -/
def renderPost (l : List Highlight) : List Highlight :=
  (withIdx 0 l).map
    (fun p => (lookupIdx (mergePostTop (sortK (fun q => q.2.start) (withIdx 0 l))) p.1).getD p.2)

theorem withIdx_fst_ge {α : Type} (l : List α) :
    ∀ n p, p ∈ withIdx n l → n ≤ p.1 := by
  induction l with
  | nil => intro n p hp; simp [withIdx] at hp
  | cons x xs ih =>
    intro n p hp
    rcases List.mem_cons.mp hp with rfl | hp'
    · exact le_refl _
    · exact le_trans (Nat.le_succ n) (ih (n + 1) p hp')

theorem withIdx_snd_mem {α : Type} (l : List α) :
    ∀ n p, p ∈ withIdx n l → p.2 ∈ l := by
  induction l with
  | nil => intro n p hp; simp [withIdx] at hp
  | cons x xs ih =>
    intro n p hp
    rcases List.mem_cons.mp hp with rfl | hp'
    · exact List.mem_cons_self x xs
    · exact List.mem_cons_of_mem x (ih (n + 1) p hp')

theorem withIdx_pairwise {α : Type} (R : α → α → Prop) (l : List α) :
    ∀ n, List.Pairwise R l → List.Pairwise (fun p q : Nat × α => R p.2 q.2) (withIdx n l) := by
  induction l with
  | nil => intro n _; simp [withIdx]
  | cons x xs ih =>
    intro n h
    rcases List.pairwise_cons.mp h with ⟨hx, hxs⟩
    refine List.pairwise_cons.mpr ⟨?_, ih (n + 1) hxs⟩
    intro q hq
    exact hx q.2 (withIdx_snd_mem xs (n + 1) q hq)

theorem chain_sep_head (l : List Highlight) :
    ∀ a, List.Chain' sep (a :: l) → (∀ r ∈ l, r.start < r.«end») →
      ∀ b ∈ l, a.«end» < b.start := by
  induction l with
  | nil => intro a _ _ b hb; simp at hb
  | cons y ys ih =>
    intro a hc hv b hb
    have h1 : a.«end» < y.start := (List.chain'_cons.mp hc).1
    rcases List.mem_cons.mp hb with rfl | hb'
    · exact h1
    · have h2 := ih y (List.chain'_cons.mp hc).2
        (fun r hr => hv r (List.mem_cons_of_mem y hr)) b hb'
      have h3 : y.start < y.«end» := hv y (List.mem_cons_self y ys)
      show a.«end» < b.start
      omega

theorem chain_sep_pairwise (l : List Highlight)
    (hc : List.Chain' sep l) (hv : ∀ r ∈ l, r.start < r.«end») :
    List.Pairwise sep l := by
  induction l with
  | nil => simp
  | cons a as ih =>
    refine List.pairwise_cons.mpr ⟨?_, ?_⟩
    · exact chain_sep_head as a hc (fun r hr => hv r (List.mem_cons_of_mem a hr))
    · exact ih hc.tail (fun r hr => hv r (List.mem_cons_of_mem a hr))

theorem mergePost_of_chain (ys : List (Nat × Highlight)) :
    ∀ cur, List.Chain' (fun p q : Nat × Highlight => sep p.2 q.2) (cur :: ys) →
      mergePost cur ys = cur :: ys := by
  induction ys with
  | nil => intro cur _; rfl
  | cons y ys' ih =>
    intro cur hc
    have h1 : cur.2.«end» < y.2.start := (List.chain'_cons.mp hc).1
    simp only [mergePost]
    rw [if_neg (by show ¬ y.2.start ≤ cur.2.«end»; omega)]
    rw [ih y (List.chain'_cons.mp hc).2]

theorem lookupIdx_cons_ne (a : Nat × Highlight) (ps : List (Nat × Highlight)) (i : Nat)
    (h : a.1 ≠ i) : lookupIdx (a :: ps) i = lookupIdx ps i := by
  unfold lookupIdx
  rw [List.find?_cons_of_neg]
  simp [h]

theorem withIdx_map_lookup (l : List Highlight) :
    ∀ n, (withIdx n l).map
        (fun p => (lookupIdx (withIdx n l) p.1).getD p.2) = l := by
  induction l with
  | nil => intro n; simp [withIdx]
  | cons x xs ih =>
    intro n
    show ((n, x) :: withIdx (n + 1) xs).map
        (fun p => (lookupIdx ((n, x) :: withIdx (n + 1) xs) p.1).getD p.2) = x :: xs
    rw [List.map_cons]
    have hhead : (lookupIdx ((n, x) :: withIdx (n + 1) xs) n).getD x = x := by
      simp [lookupIdx, List.find?_cons_of_pos]
    have htail : (withIdx (n + 1) xs).map
        (fun p => (lookupIdx ((n, x) :: withIdx (n + 1) xs) p.1).getD p.2)
        = (withIdx (n + 1) xs).map
            (fun p => (lookupIdx (withIdx (n + 1) xs) p.1).getD p.2) := by
      refine List.map_congr_left ?_
      intro p hp
      have hge : n + 1 ≤ p.1 := withIdx_fst_ge xs (n + 1) p hp
      rw [lookupIdx_cons_ne (n, x) (withIdx (n + 1) xs) p.1 (by omega)]
    rw [hhead, htail, ih (n + 1)]

/-- C3 counterexample: rendering the stored (unmerged) list
`[{start := 4, end := 9}, {start := 7, end := 15}]` mutates the first stored
range object: the sweep's `current.end = Math.max(current.end, sorted[i].end)`
writes `15` into it through the alias shared between the sorted copy and the
stored array, so the stored values afterwards are
`[{start := 4, end := 15}, {start := 7, end := 15}]`, not the original list. -/
theorem renderPost_cex :
    renderPost [{ start := 4, «end» := 9 }, { start := 7, «end» := 15 }]
      ≠ [{ start := 4, «end» := 9 }, { start := 7, «end» := 15 }] := by
  decide

/-- C3 (amended): the render pass computes its segments without mutating the
stored ranges whenever the stored list already satisfies the data-model
invariant (pairwise strictly separated with `start < end`, as every
`RangeMerger` output does); on a stored list with overlapping or touching
ranges, however, the sweep writes a new `end` into the first stored object
of each merged run through the array/object alias, so rendering is not
side-effect free in general (see the counterexample). -/
theorem renderPost_id_of_merged (l : List Highlight)
    (hc : List.Chain' sep l) (hv : ∀ r ∈ l, r.start < r.«end») :
    renderPost l = l := by
  have hpw : List.Pairwise sep l := chain_sep_pairwise l hc hv
  have hle : List.Pairwise (fun a b : Highlight => a.start ≤ b.start) l := by
    refine hpw.imp_of_mem ?_
    intro a b ha _ hab
    have h1 : a.start < a.«end» := hv a ha
    show a.start ≤ b.start
    unfold sep at hab
    omega
  have hsort : sortK (fun q : Nat × Highlight => q.2.start) (withIdx 0 l) = withIdx 0 l :=
    sortK_eq_of_pairwise _ _ (withIdx_pairwise _ l 0 hle)
  have hchainIdx : List.Chain' (fun p q : Nat × Highlight => sep p.2 q.2) (withIdx 0 l) :=
    (withIdx_pairwise sep l 0 hpw).chain'
  unfold renderPost
  rw [hsort]
  cases hwl : withIdx 0 l with
  | nil =>
    have h0 := withIdx_map_lookup l 0
    rw [hwl] at h0
    simpa using h0
  | cons a as =>
    have hpost : mergePostTop (a :: as) = a :: as := by
      show mergePost a as = a :: as
      exact mergePost_of_chain as a (hwl ▸ hchainIdx)
    rw [hpost, ← hwl]
    exact withIdx_map_lookup l 0

/-- Witness for C3 (amended): a canonical merged list is left untouched by
rendering. -/
theorem renderPost_id_witness :
    renderPost [{ start := 4, «end» := 9 }, { start := 10, «end» := 15 }]
      = [{ start := 4, «end» := 9 }, { start := 10, «end» := 15 }] :=
  renderPost_id_of_merged _
    (List.chain'_cons.mpr ⟨by decide, List.chain'_singleton _⟩) (by decide)

/-- `startOffset` of the `applyHighlight` loop body: initialized to `0` and
overwritten by the resolved offset at the start-endpoint block when the
resolver did not return `-1`. -/
def effStart (startIndex : Nat) (resStart : Int) (i : Nat) : Int :=
  if i = startIndex ∧ resStart ≠ -1 then resStart else 0

/-- `endOffset`: initialized to `section.content[i].text.length` and
overwritten by the resolved offset at the end-endpoint block when the
resolver did not return `-1`. -/
def effEnd (endIndex : Nat) (resEnd : Int) (len : Nat) (i : Nat) : Int :=
  if i = endIndex ∧ resEnd ≠ -1 then resEnd else (len : Int)

/-- The per-block body of the loop: when `startIndex === endIndex` and
`startOffset > endOffset` the offsets are swapped (after which the push
guard `startOffset < endOffset` necessarily holds); the new range is pushed
onto the block's existing list only when the guard holds. -/
def blockUpdate (old : List Highlight) (startIndex endIndex : Nat) (s0 e0 : Int) :
    List Highlight :=
  if startIndex = endIndex ∧ e0 < s0 then old ++ [{ start := e0, «end» := s0 }]
  else if s0 < e0 then old ++ [{ start := s0, «end» := e0 }]
  else old

/-- The block loop of `applyHighlight` (lines 307-337 of `Reader.tsx`),
acting on the resident highlights object viewed as a map from block index to
range list (the spec's `addSelection`).  `startIndex`/`endIndex` are the
endpoint blocks' `data-block-index` values; `resStart`/`resEnd` are the
results of `getBlockOffset` for the two endpoints (`-1` when the target text
node is not found under the block element, faithful to the resolver's
sentinel), which the loop only consults at `i == startIndex` resp.
`i == endIndex`; `textLen i` is `section.content[i].text.length`; `found i`
is whether `containerRef.current?.querySelector('[data-block-index="i"]')`
returns an element — the `if (!blockEl) continue` branch skips a block whose
wrapper was rendered without the attribute (the `'separator'` case of
`renderContent`), leaving its list untouched. -/
def applyHighlight (hs : Nat → List Highlight) (startIndex endIndex : Nat)
    (resStart resEnd : Int) (textLen : Nat → Nat) (found : Nat → Bool) :
    Nat → List Highlight :=
  fun i =>
    if min startIndex endIndex ≤ i ∧ i ≤ max startIndex endIndex then
      if found i then
        blockUpdate (hs i) startIndex endIndex
          (effStart startIndex resStart i) (effEnd endIndex resEnd (textLen i) i)
      else hs i
    else hs i

-- Spec Scenario D: reversed single-block selection 15..4 stores {4,15}.
example : applyHighlight (fun _ => []) 0 0 15 4 (fun _ => 19) (fun _ => true) 0
    = [{ start := 4, «end» := 15 }] := by decide

/-- The data-model invariant of the spec (§3): every stored range satisfies
`0 ≤ start < end ≤ len(block.text)` and each block's list is sorted
ascending by `start` and pairwise strictly separated (non-overlapping and
non-touching). -/
def hsInvariant (hs : Nat → List Highlight) (textLen : Nat → Nat) : Prop :=
  ∀ i, (∀ r ∈ hs i, 0 ≤ r.start ∧ r.start < r.«end» ∧ r.«end» ≤ (textLen i : Int))
    ∧ List.Pairwise (fun a b : Highlight => a.start ≤ b.start) (hs i)
    ∧ List.Pairwise sep (hs i)

/-- C1 counterexample: two successive single-block `addSelection` calls with
resolved offsets 4..9 and then 7..15 (spec Scenario B) leave block 0 holding
`[{start := 4, end := 9}, {start := 7, end := 15}]` — overlapping ranges —
because `applyHighlight` appends the new range and persists without running
the merge pass, so the persisted state violates the separation invariant. -/
theorem addSelection_invariant_cex :
    ¬ hsInvariant
        (applyHighlight
          (applyHighlight (fun _ => []) 0 0 4 9 (fun _ => 19) (fun _ => true))
          0 0 7 15 (fun _ => 19) (fun _ => true))
        (fun _ => 19) := by
  intro h
  have h0 := (h 0).2.2
  have heq : applyHighlight
      (applyHighlight (fun _ => []) 0 0 4 9 (fun _ => 19) (fun _ => true))
      0 0 7 15 (fun _ => 19) (fun _ => true) 0
      = [{ start := 4, «end» := 9 }, { start := 7, «end» := 15 }] := by decide
  rw [heq] at h0
  have hsep : sep { start := 4, «end» := 9 } { start := 7, «end» := 15 } :=
    (List.pairwise_cons.mp h0).1 _ (List.mem_cons_self _ _)
  exact absurd hsep (by decide)

/-- C1 (amended): after `addSelection`, every block's stored list is either
its previous list or its previous list with exactly one new range appended,
and any appended range satisfies `start < end`; the full data-model
invariant (sortedness, separation, `end ≤ len`) is NOT re-established,
because `applyHighlight` does not run `RangeMerger` before persisting —
normalization happens only inside the render pass (see the
counterexample). -/
theorem addSelection_append (hs : Nat → List Highlight) (startIndex endIndex : Nat)
    (resStart resEnd : Int) (textLen : Nat → Nat) (found : Nat → Bool) (i : Nat) :
    applyHighlight hs startIndex endIndex resStart resEnd textLen found i = hs i
      ∨ ∃ r : Highlight, r.start < r.«end»
          ∧ applyHighlight hs startIndex endIndex resStart resEnd textLen found i
              = hs i ++ [r] := by
  unfold applyHighlight
  split
  · split
    · unfold blockUpdate
      split
      · rename_i hsw
        exact Or.inr ⟨_, hsw.2, rfl⟩
      · split
        · rename_i hlt
          exact Or.inr ⟨_, hlt, rfl⟩
        · exact Or.inl rfl
    · exact Or.inl rfl
  · exact Or.inl rfl

/-- C8 counterexample: a strictly interior block whose wrapper is rendered
without a `data-block-index` attribute (the `'separator'` branch of
`renderContent`) makes `querySelector` return `null`, so the
`if (!blockEl) continue` branch skips it: in a selection spanning blocks
2..4 with both endpoints resolved, interior block 3 with text length 5 gets
nothing — not the `{0, 5}` range the claim promises for every interior
block with positive text length. -/
theorem addSelection_span_cex :
    applyHighlight (fun _ => []) 2 4 3 5 (fun _ => 5) (fun i => !(i == 3)) 3 = []
      ∧ applyHighlight (fun _ => []) 2 4 3 5 (fun _ => 5) (fun i => !(i == 3)) 3
          ≠ [{ start := 0, «end» := 5 }] := by
  decide

/-- C8 (amended): for a selection spanning several blocks
(`startIndex ≠ endIndex`) whose endpoints both resolve (no `-1` sentinel),
every block in the closed index interval **whose wrapper element is rendered
with a `data-block-index` attribute** (every non-separator block) gets
exactly one new range — the start-endpoint block gets
`{resolvedStart, len(block.text)}`, every strictly interior block gets
`{0, len(block.text)}`, the end-endpoint block gets `{0, resolvedEnd}` —
except that a block whose effective start is not strictly below its
effective end gets nothing; a block whose wrapper is not found is skipped by
`continue` and gets nothing regardless of its text length (see the
counterexample). -/
theorem addSelection_span (hs : Nat → List Highlight) (startIndex endIndex : Nat)
    (resStart resEnd : Int) (textLen : Nat → Nat) (found : Nat → Bool)
    (hne : startIndex ≠ endIndex) (hrs : resStart ≠ -1) (hre : resEnd ≠ -1)
    (i : Nat) (hlo : min startIndex endIndex ≤ i) (hhi : i ≤ max startIndex endIndex)
    (hf : found i = true) :
    applyHighlight hs startIndex endIndex resStart resEnd textLen found i =
      if i = startIndex then
        (if resStart < (textLen i : Int) then
          hs i ++ [{ start := resStart, «end» := (textLen i : Int) }] else hs i)
      else if i = endIndex then
        (if 0 < resEnd then hs i ++ [{ start := 0, «end» := resEnd }] else hs i)
      else
        (if 0 < (textLen i : Int) then
          hs i ++ [{ start := 0, «end» := (textLen i : Int) }] else hs i) := by
  unfold applyHighlight
  rw [if_pos ⟨hlo, hhi⟩]
  rw [if_pos hf]
  unfold blockUpdate effStart effEnd
  by_cases his : i = startIndex
  · subst his
    simp [hne, hrs]
  · by_cases hie : i = endIndex
    · subst hie
      simp [his, hre, hne]
    · simp [his, hie, hne]

/-- Witness for C8 (amended): spanning selection over blocks 2..4 with
resolved offsets 3 and 5 and every wrapper found; the interior block 3
receives `{0, len}`. -/
theorem addSelection_span_witness :
    applyHighlight (fun _ => []) 2 4 3 5 (fun _ => 10) (fun _ => true) 3
      = [{ start := 0, «end» := 10 }] := by
  have h := addSelection_span (fun _ => []) 2 4 3 5 (fun _ => 10) (fun _ => true)
    (by decide) (by decide) (by decide) 3 (by decide) (by decide) rfl
  simpa using h

/-- C10: `addSelection` is frame-preserving outside the selection span —
every block index outside the closed interval
`[min(startIndex, endIndex), max(startIndex, endIndex)]` keeps exactly its
previous range list. -/
theorem addSelection_frame (hs : Nat → List Highlight) (startIndex endIndex : Nat)
    (resStart resEnd : Int) (textLen : Nat → Nat) (found : Nat → Bool) (j : Nat)
    (h : j < min startIndex endIndex ∨ max startIndex endIndex < j) :
    applyHighlight hs startIndex endIndex resStart resEnd textLen found j = hs j := by
  unfold applyHighlight
  rw [if_neg (by omega)]

/-- Witness for C10: a block above the span keeps its list. -/
theorem addSelection_frame_witness :
    applyHighlight (fun _ => [{ start := 1, «end» := 2 }]) 2 4 3 5 (fun _ => 10)
      (fun _ => true) 7
      = [{ start := 1, «end» := 2 }] :=
  addSelection_frame (fun _ => [{ start := 1, «end» := 2 }]) 2 4 3 5 (fun _ => 10)
    (fun _ => true) 7 (by decide)

/-- A DOM subtree as seen by `getBlockOffset`: text nodes (with their node
identity and text content) and element nodes with ordered children.  Node
references are modelled by `Nat` identities, since `node === target`
compares references. -/
inductive DomNode where
  | text (id : Nat) (content : List Char)
  | elem (children : List DomNode)

mutual

/-- All text nodes in a subtree, in document (depth-first) order. -/
def textLeaves : DomNode → List (Nat × List Char)
  | DomNode.text i c => [(i, c)]
  | DomNode.elem cs => textLeavesList cs

def textLeavesList : List DomNode → List (Nat × List Char)
  | [] => []
  | n :: ns => textLeaves n ++ textLeavesList ns

end

/-- The node sequence produced by
`document.createTreeWalker(root, NodeFilter.SHOW_TEXT)` via `nextNode()`:
all text nodes strictly below `root` in document order (the root itself is
never returned by `nextNode`, so a text-node root yields nothing). -/
def walkerLeaves : DomNode → List (Nat × List Char)
  | DomNode.text _ _ => []
  | DomNode.elem cs => textLeavesList cs

/-- The `while` loop of `getBlockOffset` (lines 169-176 of `Reader.tsx`):
walk the text nodes accumulating `currentOffset`; on reaching the target
node return `currentOffset + offset`; if the walk ends without finding it
return `-1`. -/
def offsetLoop (targetId off : Nat) : List (Nat × List Char) → Nat → Int
  | [], _ => -1
  | (i, c) :: rest, acc =>
    if i = targetId then ((acc + off : Nat) : Int)
    else offsetLoop targetId off rest (acc + c.length)

/-- `getBlockOffset(root, target, offset)` from `Reader.tsx` (the spec's
`OffsetResolver`). -/
def getBlockOffset (root : DomNode) (target : Nat) (off : Nat) : Int :=
  offsetLoop target off (walkerLeaves root) 0

/-- Total text length of a list of text leaves. -/
def sumLens (l : List (Nat × List Char)) : Nat :=
  (l.map (fun p => p.2.length)).sum

/-- The spec's `totalTextLength(root)`: length of the concatenated text
content under `root`. -/
def totalTextLength (root : DomNode) : Nat := sumLens (walkerLeaves root)

theorem offsetLoop_miss (target off : Nat) (l : List (Nat × List Char)) :
    ∀ acc, (∀ p ∈ l, p.1 ≠ target) → offsetLoop target off l acc = -1 := by
  induction l with
  | nil => intro acc _; rfl
  | cons p rest ih =>
    intro acc h
    obtain ⟨i, c⟩ := p
    simp only [offsetLoop]
    rw [if_neg (h (i, c) (List.mem_cons_self _ _))]
    exact ih _ (fun q hq => h q (List.mem_cons_of_mem _ hq))

theorem offsetLoop_hit (target off : Nat) (c : List Char) (post : List (Nat × List Char))
    (pre : List (Nat × List Char)) :
    ∀ acc, (∀ p ∈ pre, p.1 ≠ target) →
      offsetLoop target off (pre ++ (target, c) :: post) acc
        = ((acc + sumLens pre + off : Nat) : Int) := by
  induction pre with
  | nil =>
    intro acc _
    simp [offsetLoop, sumLens]
  | cons p pre' ih =>
    intro acc h
    obtain ⟨i, d⟩ := p
    simp only [List.cons_append, offsetLoop]
    rw [if_neg (h (i, d) (List.mem_cons_self _ _))]
    show offsetLoop target off (pre' ++ (target, c) :: post) (acc + d.length)
      = ((acc + sumLens ((i, d) :: pre') + off : Nat) : Int)
    rw [ih (acc + d.length) (fun q hq => h q (List.mem_cons_of_mem _ hq))]
    have hsum : sumLens ((i, d) :: pre') = d.length + sumLens pre' := by simp [sumLens]
    congr 1
    omega

/-- C4: `getBlockOffset` performs an ordered depth-first traversal of the
text leaves under `root`: for a target text leaf under `root` (`pre` are
the leaves strictly preceding it in document order, none of which is the
target node) and an intra-node offset `0 ≤ off ≤ length of the leaf's
text`, it returns the sum of the text lengths of all preceding leaves plus
`off`, a value in `[0, totalTextLength root]`; for a target that is not a
text leaf under `root` it returns the sentinel `-1`. -/
theorem offsetResolver_spec (root : DomNode) (target : Nat) (off : Nat) :
    (∀ pre c post,
        walkerLeaves root = pre ++ (target, c) :: post →
        (∀ p ∈ pre, p.1 ≠ target) →
        off ≤ c.length →
        getBlockOffset root target off = ((sumLens pre + off : Nat) : Int)
          ∧ 0 ≤ getBlockOffset root target off
          ∧ getBlockOffset root target off ≤ (totalTextLength root : Int))
    ∧ ((∀ p ∈ walkerLeaves root, p.1 ≠ target) → getBlockOffset root target off = -1) := by
  constructor
  · intro pre c post hdecomp hpre hoff
    have h1 : getBlockOffset root target off = ((sumLens pre + off : Nat) : Int) := by
      unfold getBlockOffset
      rw [hdecomp]
      simpa using offsetLoop_hit target off c post pre 0 hpre
    refine ⟨h1, ?_, ?_⟩
    · rw [h1]
      exact Int.natCast_nonneg _
    · rw [h1]
      unfold totalTextLength
      rw [hdecomp]
      have hsum : sumLens (pre ++ (target, c) :: post)
          = sumLens pre + (c.length + sumLens post) := by
        simp [sumLens]
      omega
  · intro hmiss
    unfold getBlockOffset
    exact offsetLoop_miss target off (walkerLeaves root) 0 hmiss

/-- A concrete block subtree with nested inline markup: `ab`, a wrapped
`cd`, then `ef`. -/
def demoRoot : DomNode :=
  DomNode.elem
    [DomNode.text 1 ['a', 'b'],
     DomNode.elem [DomNode.text 2 ['c', 'd']],
     DomNode.text 3 ['e', 'f']]

/-- Witness for C4: inside `demoRoot`, offset 1 within the nested leaf `cd`
resolves to 2 + 1 = 3; an unknown node resolves to `-1`. -/
theorem offsetResolver_witness :
    getBlockOffset demoRoot 2 1 = 3 ∧ getBlockOffset demoRoot 99 0 = -1 := by
  have hleaves : walkerLeaves demoRoot
      = [(1, ['a', 'b']), (2, ['c', 'd']), (3, ['e', 'f'])] := by
    simp [demoRoot, walkerLeaves, textLeavesList, textLeaves]
  constructor
  · have h := ((offsetResolver_spec demoRoot 2 1).1 [(1, ['a', 'b'])] ['c', 'd']
      [(3, ['e', 'f'])] (by rw [hleaves]; rfl) (by decide) (by decide)).1
    rw [h]
    decide
  · exact (offsetResolver_spec demoRoot 99 0).2 (by rw [hleaves]; decide)

/-- The characters `{`, `}` and `"` used by the persisted JSON layout. -/
def lbrace : Char := Char.ofNat 123

def rbrace : Char := Char.ofNat 125

def dq : Char := Char.ofNat 34

/-- Decimal digit character for `d < 10` (the image of `d % 10`). -/
def digitChar : Nat → Char
  | 0 => '0' | 1 => '1' | 2 => '2' | 3 => '3' | 4 => '4'
  | 5 => '5' | 6 => '6' | 7 => '7' | 8 => '8' | _ => '9'

/-- Numeric value of a decimal digit character. -/
def digitVal (c : Char) : Nat := c.toNat - 48

/-- Whether a character is a decimal digit. -/
def isDig (c : Char) : Bool := 48 ≤ c.toNat && c.toNat ≤ 57

theorem digitVal_digitChar (d : Nat) (h : d < 10) : digitVal (digitChar d) = d := by
  interval_cases d <;> decide

theorem isDig_digitChar (d : Nat) (h : d < 10) : isDig (digitChar d) = true := by
  interval_cases d <;> decide

/-- Decimal digits of `n`, most significant first, via an explicit fuel
bound (`natDigits` always supplies enough fuel); models the decimal
rendering `JSON.stringify` uses for integer-valued numbers. -/
def natDigitsF : Nat → Nat → List Char
  | 0, _ => []
  | fuel + 1, n =>
    if n < 10 then [digitChar n]
    else natDigitsF fuel (n / 10) ++ [digitChar (n % 10)]

def natDigits (n : Nat) : List Char := natDigitsF (n + 1) n

example : natDigits 0 = ['0'] := by decide
example : natDigits 407 = ['4', '0', '7'] := by decide

/-- Value of a digit string, most significant first. -/
def valOfDigits (l : List Char) : Nat :=
  l.foldl (fun a c => a * 10 + digitVal c) 0

theorem valOfDigits_concat (l : List Char) (c : Char) :
    valOfDigits (l ++ [c]) = valOfDigits l * 10 + digitVal c := by
  unfold valOfDigits
  rw [List.foldl_append]
  rfl

theorem natDigitsF_ne_nil (fuel n : Nat) : natDigitsF (fuel + 1) n ≠ [] := by
  unfold natDigitsF
  split
  · simp
  · simp

theorem natDigitsF_all_dig (fuel : Nat) :
    ∀ n, n < 10 ^ fuel → ∀ c ∈ natDigitsF fuel n, isDig c = true := by
  induction fuel with
  | zero => intro n h c hc; simp [natDigitsF] at hc
  | succ fuel ih =>
    intro n hn c hc
    unfold natDigitsF at hc
    split at hc
    · rename_i hlt
      rcases List.mem_singleton.mp hc with rfl
      exact isDig_digitChar n hlt
    · rcases List.mem_append.mp hc with hc' | hc'
      · refine ih (n / 10) ?_ c hc'
        have : 10 ^ (fuel + 1) = 10 ^ fuel * 10 := by ring
        omega
      · rcases List.mem_singleton.mp hc' with rfl
        exact isDig_digitChar (n % 10) (Nat.mod_lt n (by norm_num))

theorem natDigitsF_val (fuel : Nat) :
    ∀ n, n < 10 ^ fuel → valOfDigits (natDigitsF fuel n) = n := by
  induction fuel with
  | zero => intro n h; simp at h; simp [h, natDigitsF, valOfDigits]
  | succ fuel ih =>
    intro n hn
    unfold natDigitsF
    split
    · rename_i hlt
      show valOfDigits [digitChar n] = n
      simp [valOfDigits, digitVal_digitChar n hlt]
    · rename_i hge
      rw [valOfDigits_concat]
      have hdiv : n / 10 < 10 ^ fuel := by
        have : 10 ^ (fuel + 1) = 10 ^ fuel * 10 := by ring
        omega
      rw [ih (n / 10) hdiv]
      rw [digitVal_digitChar (n % 10) (Nat.mod_lt n (by omega))]
      omega

theorem nat_lt_pow_succ (n : Nat) : n < 10 ^ (n + 1) := by
  have h1 : n < 10 ^ n := Nat.lt_pow_self (by norm_num) n
  have h2 : 10 ^ n ≤ 10 ^ (n + 1) :=
    Nat.pow_le_pow_right (by norm_num) (Nat.le_succ n)
  omega

theorem natDigits_ne_nil (n : Nat) : natDigits n ≠ [] :=
  natDigitsF_ne_nil n n

theorem natDigits_all_dig (n : Nat) : ∀ c ∈ natDigits n, isDig c = true :=
  natDigitsF_all_dig (n + 1) n (nat_lt_pow_succ n)

theorem natDigits_val (n : Nat) : valOfDigits (natDigits n) = n :=
  natDigitsF_val (n + 1) n (nat_lt_pow_succ n)

/-- `rest` does not begin with a digit (so a digit scan stops exactly at the
serialized number's boundary). -/
def noDigHead : List Char → Prop
  | [] => True
  | c :: _ => isDig c = false

theorem takeWhile_app_of_all (p : Char → Bool) (a b : List Char)
    (h : ∀ c ∈ a, p c = true) : List.takeWhile p (a ++ b) = a ++ List.takeWhile p b := by
  induction a with
  | nil => simp
  | cons c cs ih =>
    simp only [List.cons_append, List.takeWhile_cons]
    rw [h c (List.mem_cons_self c cs)]
    simp [ih (fun d hd => h d (List.mem_cons_of_mem c hd))]

theorem dropWhile_app_of_all (p : Char → Bool) (a b : List Char)
    (h : ∀ c ∈ a, p c = true) : List.dropWhile p (a ++ b) = List.dropWhile p b := by
  induction a with
  | nil => simp
  | cons c cs ih =>
    simp only [List.cons_append, List.dropWhile_cons]
    rw [h c (List.mem_cons_self c cs)]
    simp [ih (fun d hd => h d (List.mem_cons_of_mem c hd))]

theorem takeWhile_nodig (b : List Char) (h : noDigHead b) :
    List.takeWhile isDig b = [] := by
  cases b with
  | nil => rfl
  | cons c cs =>
    simp only [noDigHead] at h
    simp [List.takeWhile_cons, h]

theorem dropWhile_nodig (b : List Char) (h : noDigHead b) :
    List.dropWhile isDig b = b := by
  cases b with
  | nil => rfl
  | cons c cs =>
    simp only [noDigHead] at h
    simp [List.dropWhile_cons, h]

/-- Scans a decimal number prefix (models the number production of
`JSON.parse` restricted to unsigned integers). -/
def parseNat (s : List Char) : Option (Nat × List Char) :=
  if (s.takeWhile isDig).isEmpty then none
  else some (valOfDigits (s.takeWhile isDig), s.dropWhile isDig)

theorem parseNat_round (n : Nat) (rest : List Char) (h : noDigHead rest) :
    parseNat (natDigits n ++ rest) = some (n, rest) := by
  unfold parseNat
  rw [takeWhile_app_of_all isDig (natDigits n) rest (natDigits_all_dig n)]
  rw [takeWhile_nodig rest h]
  rw [dropWhile_app_of_all isDig (natDigits n) rest (natDigits_all_dig n)]
  rw [dropWhile_nodig rest h]
  rw [List.append_nil]
  rw [if_neg (by simpa using natDigits_ne_nil n)]
  rw [natDigits_val n]

/-- Decimal rendering of an integer-valued JS number. -/
def intChars (i : Int) : List Char :=
  if i < 0 then '-' :: natDigits i.natAbs else natDigits i.natAbs

/-- Signed-integer production: an optional leading `-` then digits. -/
def parseInt : List Char → Option (Int × List Char)
  | [] => none
  | c :: rest =>
    if c = '-' then (parseNat rest).map (fun p => (-(p.1 : Int), p.2))
    else (parseNat (c :: rest)).map (fun p => ((p.1 : Int), p.2))

theorem parseInt_round (i : Int) (rest : List Char) (h : noDigHead rest) :
    parseInt (intChars i ++ rest) = some (i, rest) := by
  unfold intChars
  split
  · rename_i hneg
    show parseInt ('-' :: (natDigits i.natAbs ++ rest)) = some (i, rest)
    simp only [parseInt]
    rw [if_pos trivial]
    rw [parseNat_round i.natAbs rest h]
    have hab : -((i.natAbs : Nat) : Int) = i := by omega
    show some ((-(i.natAbs : Int) : Int), rest) = some (i, rest)
    rw [hab]
  · rename_i hpos
    cases hd : natDigits i.natAbs with
    | nil => exact absurd hd (natDigits_ne_nil _)
    | cons c cs =>
      show parseInt (c :: (cs ++ rest)) = some (i, rest)
      simp only [parseInt]
      have hcd : isDig c = true := by
        refine natDigits_all_dig i.natAbs c ?_
        rw [hd]; exact List.mem_cons_self c cs
      have hcm : ¬ c = '-' := by
        intro hcc; rw [hcc] at hcd; exact absurd hcd (by decide)
      rw [if_neg hcm]
      have hres : (c :: (cs ++ rest)) = natDigits i.natAbs ++ rest := by rw [hd]; rfl
      rw [hres, parseNat_round i.natAbs rest h]
      have hab : ((i.natAbs : Nat) : Int) = i := by omega
      simp [hab]

/-- Consumes an expected literal character sequence. -/
def stripPref : List Char → List Char → Option (List Char)
  | [], s => some s
  | _ :: _, [] => none
  | c :: cs, d :: ds => if d = c then stripPref cs ds else none

theorem stripPref_round (pat s : List Char) : stripPref pat (pat ++ s) = some s := by
  induction pat with
  | nil => rfl
  | cons c cs ih =>
    show stripPref (c :: cs) (c :: (cs ++ s)) = some s
    unfold stripPref
    rw [if_pos rfl]
    exact ih

/-- The literal `{"start":` opening a serialized range object
(`JSON.stringify` emits the object's keys in insertion order, `start` then
`end`, with no whitespace). -/
def startKey : List Char := [lbrace, dq, 's', 't', 'a', 'r', 't', dq, ':']

/-- The literal `,"end":` between the two fields. -/
def endKey : List Char := [',', dq, 'e', 'n', 'd', dq, ':']

/-- `JSON.stringify` of one `Highlight` object. -/
def stringifyHl (h : Highlight) : List Char :=
  startKey ++ (intChars h.start ++ (endKey ++ (intChars h.«end» ++ [rbrace])))

/-- The comma-joined items of a serialized array. -/
def arrItems : List Highlight → List Char
  | [] => []
  | [h] => stringifyHl h
  | h :: h2 :: rest => stringifyHl h ++ (',' :: arrItems (h2 :: rest))

/-- `JSON.stringify` of a range array. -/
def stringifyArr (l : List Highlight) : List Char :=
  '[' :: (arrItems l ++ [']'])

/-- The comma-joined `"<blockIndex>":[...]` properties of the serialized
highlights object (integer-like keys enumerate in ascending order in JS, so
a canonical `HighlightsState` has ascending keys). -/
def objItems : List (Nat × List Highlight) → List Char
  | [] => []
  | [(k, v)] => dq :: (natDigits k ++ (dq :: ':' :: stringifyArr v))
  | (k, v) :: p :: rest =>
      (dq :: (natDigits k ++ (dq :: ':' :: stringifyArr v))) ++ (',' :: objItems (p :: rest))

/-- `JSON.stringify(newHighlights)` as called by `saveHighlights`
(`Reader.tsx` line 249): the persisted-state layout
`{"<blockIndex>":[{"start":s,"end":e},...],...}`. -/
def stringifyHighlights (H : List (Nat × List Highlight)) : List Char :=
  lbrace :: (objItems H ++ [rbrace])

example : stringifyHighlights [(0, [{ start := 4, «end» := 9 }])]
    = (String.toList "\x7b\"0\":[\x7b\"start\":4,\"end\":9\x7d]\x7d") := by decide

/-- Parses one serialized range object. -/
def parseHl (s : List Char) : Option (Highlight × List Char) :=
  (stripPref startKey s).bind (fun s1 =>
    (parseInt s1).bind (fun a =>
      (stripPref endKey a.2).bind (fun s3 =>
        (parseInt s3).bind (fun b =>
          match b.2 with
          | rb :: s5 =>
            if rb = rbrace then some ({ start := a.1, «end» := b.1 }, s5) else none
          | [] => none))))

/-- Parses the comma-separated items of a non-empty array up to and
including the closing `]`; the fuel (always instantiated above the item
count) makes the recursion structural. -/
def parseItems : Nat → List Char → Option (List Highlight × List Char)
  | 0, _ => none
  | fuel + 1, s =>
    (parseHl s).bind (fun p =>
      match p.2 with
      | c :: r2 =>
        if c = ',' then (parseItems fuel r2).map (fun q => (p.1 :: q.1, q.2))
        else if c = ']' then some ([p.1], r2)
        else none
      | [] => none)

/-- Parses a serialized range array. -/
def parseArr (fuel : Nat) (s : List Char) : Option (List Highlight × List Char) :=
  match s with
  | c :: rest =>
    if c = '[' then
      match rest with
      | d :: r2 => if d = ']' then some ([], r2) else parseItems fuel rest
      | [] => none
    else none
  | [] => none

/-- Parses the comma-separated properties of a non-empty object up to and
including the closing brace. -/
def parsePairs : Nat → List Char → Option (List (Nat × List Highlight) × List Char)
  | 0, _ => none
  | fuel + 1, s =>
    match s with
    | [] => none
    | c :: s1 =>
      if c = dq then
        (parseNat s1).bind (fun kp =>
          (stripPref [dq, ':'] kp.2).bind (fun s3 =>
            (parseArr s3.length s3).bind (fun vp =>
              match vp.2 with
              | c2 :: s5 =>
                if c2 = ',' then
                  (parsePairs fuel s5).map (fun q => ((kp.1, vp.1) :: q.1, q.2))
                else if c2 = rbrace then some ([(kp.1, vp.1)], s5)
                else none
              | [] => none)))
      else none

/-- `JSON.parse` of a persisted highlights string, restricted to the
persisted mapping shape (a top-level object of string-number keys and range
arrays, the only shape `saveHighlights` ever writes); any other input is a
parse failure, modelling the exception path of the load effect. -/
def parseHighlights (s : List Char) : Option (List (Nat × List Highlight)) :=
  match s with
  | [] => none
  | c :: rest =>
    if c = lbrace then
      match rest with
      | [] => none
      | d :: r2 =>
        if d = rbrace then (if r2.isEmpty then some [] else none)
        else
          (parsePairs rest.length rest).bind (fun q =>
            if q.2.isEmpty then some q.1 else none)
    else none

/-- `saveHighlights` (`Reader.tsx` lines 247-250): the value written to the
key-value store under `highlights-<sectionId>` is the JSON serialization of
the highlights object. -/
def saveHighlights (H : List (Nat × List Highlight)) : List Char :=
  stringifyHighlights H

/-- The load effect of `Reader` (`Reader.tsx` lines 233-245), as a function
of the previously resident state and the stored value for the new document:
a missing value (`null`) resets the resident state to the empty object; a
present value is `JSON.parse`d and becomes the resident state; a value that
fails to parse only logs — the resident state is left as it was. -/
def loadHighlights (prev : List (Nat × List Highlight)) (saved : Option (List Char)) :
    List (Nat × List Highlight) :=
  match saved with
  | none => []
  | some s =>
    match parseHighlights s with
    | some H => H
    | none => prev

theorem parseHl_round (h : Highlight) (r : List Char) :
    parseHl (stringifyHl h ++ r) = some (h, r) := by
  have hsplit : stringifyHl h ++ r
      = startKey ++ (intChars h.start ++ (endKey ++ (intChars h.«end» ++ (rbrace :: r)))) := by
    simp [stringifyHl]
  have h1 : noDigHead (endKey ++ (intChars h.«end» ++ (rbrace :: r))) := by
    show isDig ',' = false
    decide
  have h2 : noDigHead (rbrace :: r) := by
    show isDig rbrace = false
    decide
  have e0 : stripPref startKey
      (startKey ++ (intChars h.start ++ (endKey ++ (intChars h.«end» ++ (rbrace :: r)))))
      = some (intChars h.start ++ (endKey ++ (intChars h.«end» ++ (rbrace :: r)))) :=
    stripPref_round _ _
  have e1 : parseInt (intChars h.start ++ (endKey ++ (intChars h.«end» ++ (rbrace :: r))))
      = some (h.start, endKey ++ (intChars h.«end» ++ (rbrace :: r))) :=
    parseInt_round _ _ h1
  have e2 : stripPref endKey (endKey ++ (intChars h.«end» ++ (rbrace :: r)))
      = some (intChars h.«end» ++ (rbrace :: r)) :=
    stripPref_round _ _
  have e3 : parseInt (intChars h.«end» ++ (rbrace :: r)) = some (h.«end», rbrace :: r) :=
    parseInt_round _ _ h2
  rw [hsplit]
  simp [parseHl, e0, e1, e2, e3]

theorem parseItems_round (v : List Highlight) :
    v ≠ [] → ∀ (rest : List Char) (fuel : Nat), v.length ≤ fuel →
      parseItems fuel (arrItems v ++ (']' :: rest)) = some (v, rest) := by
  induction v with
  | nil => intro hne; exact absurd rfl hne
  | cons h t ih =>
    intro _ rest fuel hfuel
    cases fuel with
    | zero => simp at hfuel
    | succ f =>
      cases t with
      | nil =>
        have e := parseHl_round h (']' :: rest)
        show parseItems (f + 1) (stringifyHl h ++ (']' :: rest)) = some ([h], rest)
        simp [parseItems, e]
      | cons h2 t2 =>
        have hsplit : arrItems (h :: h2 :: t2) ++ (']' :: rest)
            = stringifyHl h ++ (',' :: (arrItems (h2 :: t2) ++ (']' :: rest))) := by
          simp [arrItems]
        have e := parseHl_round h (',' :: (arrItems (h2 :: t2) ++ (']' :: rest)))
        have eih := ih (by simp) rest f (by simpa using Nat.succ_le_succ_iff.mp hfuel)
        rw [hsplit]
        simp [parseItems, e, eih]

theorem parseArr_round (v : List Highlight) (rest : List Char) (fuel : Nat)
    (hfuel : v.length ≤ fuel) :
    parseArr fuel (stringifyArr v ++ rest) = some (v, rest) := by
  cases v with
  | nil =>
    show parseArr fuel ('[' :: (([] ++ [']']) ++ rest)) = some ([], rest)
    simp [parseArr]
  | cons h t =>
    have hhead : ∃ tl, arrItems (h :: t) = lbrace :: tl := by
      cases t with
      | nil => exact ⟨_, rfl⟩
      | cons h2 t2 => exact ⟨_, rfl⟩
    obtain ⟨tl, htl⟩ := hhead
    have hsplit : stringifyArr (h :: t) ++ rest
        = '[' :: (arrItems (h :: t) ++ (']' :: rest)) := by
      simp [stringifyArr]
    rw [hsplit]
    have hitems := parseItems_round (h :: t) (by simp) rest fuel hfuel
    show parseArr fuel ('[' :: (arrItems (h :: t) ++ (']' :: rest))) = some (h :: t, rest)
    rw [htl] at hitems ⊢
    show (if '[' = '[' then
        match (lbrace :: tl) ++ (']' :: rest) with
        | d :: r2 => if d = ']' then some ([], r2) else parseItems fuel ((lbrace :: tl) ++ (']' :: rest))
        | [] => none
      else none) = some (h :: t, rest)
    rw [if_pos rfl]
    show (if lbrace = ']' then some ([], tl ++ (']' :: rest))
        else parseItems fuel ((lbrace :: tl) ++ (']' :: rest))) = some (h :: t, rest)
    rw [if_neg (by decide)]
    exact hitems

theorem stringifyHl_length_pos (h : Highlight) : 0 < (stringifyHl h).length := by
  unfold stringifyHl
  rw [List.length_append]
  have h9 : startKey.length = 9 := rfl
  omega

theorem arrItems_length_ge (v : List Highlight) : v.length ≤ (arrItems v).length := by
  induction v with
  | nil => simp [arrItems]
  | cons h t ih =>
    cases t with
    | nil => simpa [arrItems] using stringifyHl_length_pos h
    | cons h2 t2 =>
      show (h :: h2 :: t2).length ≤ (stringifyHl h ++ (',' :: arrItems (h2 :: t2))).length
      have h1 := stringifyHl_length_pos h
      simp only [List.length_cons, List.length_append] at *
      omega

theorem objItems_length_ge (H : List (Nat × List Highlight)) :
    H.length ≤ (objItems H).length := by
  induction H with
  | nil => simp [objItems]
  | cons p t ih =>
    obtain ⟨k, v⟩ := p
    cases t with
    | nil =>
      show 1 ≤ (dq :: (natDigits k ++ (dq :: ':' :: stringifyArr v))).length
      simp
    | cons p2 t2 =>
      show ((k, v) :: p2 :: t2 : List (Nat × List Highlight)).length
        ≤ ((dq :: (natDigits k ++ (dq :: ':' :: stringifyArr v)))
            ++ (',' :: objItems (p2 :: t2))).length
      simp only [List.length_cons, List.length_append] at *
      omega

theorem parsePairs_round (H : List (Nat × List Highlight)) :
    H ≠ [] → ∀ (rest : List Char) (fuel : Nat), H.length ≤ fuel →
      parsePairs fuel (objItems H ++ (rbrace :: rest)) = some (H, rest) := by
  induction H with
  | nil => intro hne; exact absurd rfl hne
  | cons p t ih =>
    intro _ rest fuel hfuel
    obtain ⟨k, v⟩ := p
    cases fuel with
    | zero => simp at hfuel
    | succ f =>
      have hc1 : ¬ (rbrace = ',') := by decide
      have hcq : ¬ (isDig dq = true) := by decide
      cases t with
      | nil =>
        have e1 : parseNat (natDigits k ++ (dq :: ':' :: (stringifyArr v ++ (rbrace :: rest))))
            = some (k, dq :: ':' :: (stringifyArr v ++ (rbrace :: rest))) :=
          parseNat_round k _ (by show isDig dq = false; decide)
        have e2 : stripPref [dq, ':'] (dq :: ':' :: (stringifyArr v ++ (rbrace :: rest)))
            = some (stringifyArr v ++ (rbrace :: rest)) :=
          stripPref_round [dq, ':'] _
        have hsplit : objItems [(k, v)] ++ (rbrace :: rest)
            = dq :: (natDigits k ++ (dq :: ':' :: (stringifyArr v ++ (rbrace :: rest)))) := by
          simp [objItems]
        rw [hsplit]
        simp only [parsePairs, e1, e2, Option.some_bind, if_pos rfl]
        rw [parseArr_round v (rbrace :: rest) _ (by
          have h1 := arrItems_length_ge v
          simp only [stringifyArr, List.length_append, List.length_cons]
          omega)]
        simp [hc1]
      | cons p2 t2 =>
        have e1 : parseNat (natDigits k
              ++ (dq :: ':' :: (stringifyArr v
                ++ (',' :: (objItems (p2 :: t2) ++ (rbrace :: rest))))))
            = some (k, dq :: ':' :: (stringifyArr v
                ++ (',' :: (objItems (p2 :: t2) ++ (rbrace :: rest))))) :=
          parseNat_round k _ (by show isDig dq = false; decide)
        have e2 : stripPref [dq, ':']
            (dq :: ':' :: (stringifyArr v
              ++ (',' :: (objItems (p2 :: t2) ++ (rbrace :: rest)))))
            = some (stringifyArr v ++ (',' :: (objItems (p2 :: t2) ++ (rbrace :: rest)))) :=
          stripPref_round [dq, ':'] _
        have eih := ih (by simp) rest f (by simpa using Nat.succ_le_succ_iff.mp hfuel)
        have hsplit : objItems ((k, v) :: p2 :: t2) ++ (rbrace :: rest)
            = dq :: (natDigits k ++ (dq :: ':' :: (stringifyArr v
                ++ (',' :: (objItems (p2 :: t2) ++ (rbrace :: rest)))))) := by
          simp [objItems]
        rw [hsplit]
        simp only [parsePairs, e1, e2, Option.some_bind, if_pos rfl]
        rw [parseArr_round v (',' :: (objItems (p2 :: t2) ++ (rbrace :: rest))) _ (by
          have h1 := arrItems_length_ge v
          simp only [stringifyArr, List.length_append, List.length_cons]
          omega)]
        simp [eih]

theorem parse_stringify (H : List (Nat × List Highlight)) :
    parseHighlights (stringifyHighlights H) = some H := by
  cases H with
  | nil => decide
  | cons p t =>
    obtain ⟨k, v⟩ := p
    have hhead : ∃ tl, objItems ((k, v) :: t) = dq :: tl := by
      cases t with
      | nil => exact ⟨_, rfl⟩
      | cons p2 t2 => exact ⟨_, rfl⟩
    obtain ⟨tl, htl⟩ := hhead
    have hbound : ((k, v) :: t).length ≤ (objItems ((k, v) :: t) ++ (rbrace :: [])).length := by
      have h1 := objItems_length_ge ((k, v) :: t)
      simp only [List.length_append, List.length_cons] at *
      omega
    have hpairs := parsePairs_round ((k, v) :: t) (by simp) []
      (objItems ((k, v) :: t) ++ (rbrace :: [])).length hbound
    have hsplit : stringifyHighlights ((k, v) :: t)
        = lbrace :: (objItems ((k, v) :: t) ++ (rbrace :: [])) := by
      simp [stringifyHighlights]
    rw [hsplit, htl]
    rw [htl] at hpairs
    show (if dq = rbrace then (if (tl ++ (rbrace :: [])).isEmpty then some [] else none)
        else (parsePairs ((dq :: tl) ++ (rbrace :: [])).length ((dq :: tl) ++ (rbrace :: []))).bind
            (fun q => if q.2.isEmpty then some q.1 else none))
      = some ((k, v) :: t)
    rw [if_neg (by decide : ¬ dq = rbrace)]
    show (parsePairs ((dq :: tl) ++ (rbrace :: [])).length ((dq :: tl) ++ (rbrace :: []))).bind
        (fun q => if q.2.isEmpty then some q.1 else none) = some ((k, v) :: t)
    rw [show ((dq :: tl) ++ (rbrace :: [])) = (dq :: tl) ++ (rbrace :: []) from rfl]
    rw [hpairs]
    rfl

/-- C9: save/load round-trips — for every highlights object `H` in its
canonical JS form (ascending block-index keys; including the empty object
and ranges touching the text boundaries at `0` and `len`), parsing the
string `saveHighlights` writes yields exactly `H` again, whatever state was
resident before the load. -/
theorem saveLoad_roundtrip (prev H : List (Nat × List Highlight))
    (_hkeys : List.Pairwise (fun a b : Nat × List Highlight => a.1 < b.1) H) :
    loadHighlights prev (some (saveHighlights H)) = H := by
  show (match parseHighlights (stringifyHighlights H) with
      | some H2 => H2
      | none => prev) = H
  rw [parse_stringify H]

/-- Witness for C9: the empty set and a two-block set whose ranges touch
the boundaries 0 and len both round-trip. -/
theorem saveLoad_roundtrip_witness :
    loadHighlights [] (some (saveHighlights [])) = []
      ∧ loadHighlights [(9, [{ start := 1, «end» := 2 }])]
          (some (saveHighlights
            [(0, [{ start := 0, «end» := 19 }]), (2, [{ start := 4, «end» := 9 }])]))
        = [(0, [{ start := 0, «end» := 19 }]), (2, [{ start := 4, «end» := 9 }])] :=
  ⟨saveLoad_roundtrip [] [] (by decide),
   saveLoad_roundtrip [(9, [{ start := 1, «end» := 2 }])] _ (by decide)⟩

/-- A resident highlight set from a previously open document. -/
def prevDemo : List (Nat × List Highlight) := [(0, [{ start := 0, «end» := 3 }])]

/-- C2 (code bug): when the persisted value for the new document is present
but malformed (here the string `"\x7b"`, on which `JSON.parse` throws), the
load effect's `catch` only logs — it never resets the state — so the
previous document's resident highlights survive instead of being replaced
by the empty set the spec requires; only the missing-value branch resets to
empty. -/
theorem loadMalformed_keeps_previous :
    loadHighlights prevDemo (some [lbrace]) = prevDemo
      ∧ prevDemo ≠ []
      ∧ loadHighlights prevDemo none = [] := by
  refine ⟨by decide, by decide, rfl⟩
